import Mathlib

/-!
Verification of the URL-to-title pipeline of the obsidian-auto-link-title
plugin.  The definitions below are shallow embeddings of the TypeScript
source: strings are modelled as `List Char`, the JavaScript regular
expressions of `src/settings.ts` are modelled as executable full-match
predicates with the same language, and the asynchronous network strategies
are modelled as `Except Unit (List Char)` parameters (an `error` value
stands for a rejected promise, an `ok` value for the string the strategy
resolved with).
-/

set_option maxHeartbeats 1000000

namespace AutoLinkTitle

/-- ASCII-only lowercasing, matching how a JavaScript case-insensitive
regular expression (flag `i`, no `u`) canonicalizes characters: only the
ASCII letters A-Z are folded, every other character is left alone. -/
def lowerAscii (c : Char) : Char :=
  if 65 ≤ c.toNat && c.toNat ≤ 90 then Char.ofNat (c.toNat + 32) else c

/-- Character class `[a-zA-Z0-9]` of the source regex. -/
def isAlnum (c : Char) : Bool :=
  (97 ≤ c.toNat && c.toNat ≤ 122) ||
  (65 ≤ c.toNat && c.toNat ≤ 90) ||
  (48 ≤ c.toNat && c.toNat ≤ 57)

/-- Character class `[a-zA-Z0-9-]` of the source regex. -/
def isAlnumHyphen (c : Char) : Bool := isAlnum c || c = '-'

/-- The JavaScript whitespace set: the characters matched by `\s` in a
regular expression, which is also exactly the set removed by
`String.prototype.trim`. -/
def jsWhitespace (c : Char) : Bool :=
  let n := c.toNat
  n = 0x9 || n = 0xa || n = 0xb || n = 0xc || n = 0xd || n = 0x20 ||
  n = 0xa0 || n = 0x1680 || (0x2000 ≤ n && n ≤ 0x200a) ||
  n = 0x2028 || n = 0x2029 || n = 0x202f || n = 0x205f || n = 0x3000 ||
  n = 0xfeff

/-- Case-insensitive literal prefix match: returns the remainder of `s`
after the literal `p` when `s` starts with `p` up to ASCII case, and
`none` otherwise.  This is the building block for the literal pieces
(`http://`, `https://`, `www.`) of the source regex, which carries the
`i` flag. -/
def startsWithCI : List Char → List Char → Option (List Char)
  | [], s => some s
  | _ :: _, [] => none
  | p :: ps, c :: cs =>
    if lowerAscii c = lowerAscii p then startsWithCI ps cs else none

/-- Matches the `https?:\/\/` piece of the source regex, returning the
remainder of the string after the scheme. -/
def stripScheme (s : List Char) : Option (List Char) :=
  match startsWithCI ("http://".toList) s with
  | some r => some r
  | none => startsWithCI ("https://".toList) s

/-- The group `(?:www\.|(?!www))` of the source regex: either consume a
literal `www.`, or require that the remainder does not start with `www`
(negative lookahead) and consume nothing.  Returns the list of remainders
the group can leave behind. -/
def wwwGroup (r : List Char) : List (List Char) :=
  (match startsWithCI ("www.".toList) r with
    | some r1 => [r1]
    | none => []) ++
  (match startsWithCI ("www".toList) r with
    | some _ => []
    | none => [r])

/-- The trailing `[^\s]{2,}` piece of the source regex, anchored at the
end of the string: the whole remainder must be at least two characters of
non-whitespace. -/
def tailOk (t : List Char) : Bool :=
  decide (2 ≤ t.length) && t.all (fun c => !(jsWhitespace c))

/-- The hyphenated-label piece `[a-zA-Z0-9][a-zA-Z0-9-]+[a-zA-Z0-9]` of
the source regex: at least three characters, alphanumeric at both ends,
alphanumeric or hyphen in between. -/
def labHyphen (lab : List Char) : Bool :=
  decide (3 ≤ lab.length) &&
  (match lab.head? with | some c => isAlnum c | none => false) &&
  (match lab.getLast? with | some c => isAlnum c | none => false) &&
  ((lab.drop 1).dropLast.all isAlnumHyphen)

/-- The plain-label piece `[a-zA-Z0-9]+` of the source regex. -/
def labPlain (lab : List Char) : Bool :=
  decide (1 ≤ lab.length) && lab.all isAlnum

/-- Full match of `LABEL\.[^\s]{2,}` against the whole remainder `r`:
some split of `r` into a label, a literal dot, and a valid tail. -/
def labelDotTail (labOk : List Char → Bool) (r : List Char) : Bool :=
  (List.range (r.length + 1)).any (fun k =>
    labOk (r.take k) && ((r.drop k).head? == some '.') && tailOk (r.drop (k + 1)))

/-- One scheme-prefixed alternative of the source regex:
`https?:\/\/(?:www\.|(?!www))LABEL\.[^\s]{2,}`. -/
def matchSchemeAlt (labOk : List Char → Bool) (s : List Char) : Bool :=
  match stripScheme s with
  | none => false
  | some r => (wwwGroup r).any (labelDotTail labOk)

/-- One www-prefixed alternative of the source regex:
`www\.LABEL\.[^\s]{2,}`. -/
def matchWwwAlt (labOk : List Char → Bool) (s : List Char) : Bool :=
  match startsWithCI ("www.".toList) s with
  | none => false
  | some r => labelDotTail labOk r

/-- CheckIf.isUrl from src/src/checkif.ts: tests the whole string against
DEFAULT_SETTINGS.regex of src/settings.ts, the anchored case-insensitive
alternation of the four alternatives modelled above.  A full match of an
anchored alternation exists exactly when one alternative matches the whole
string, so the embedding takes the disjunction of the four alternatives. -/
def isUrl (s : List Char) : Bool :=
  matchSchemeAlt labHyphen s || matchWwwAlt labHyphen s ||
  matchSchemeAlt labPlain s || matchWwwAlt labPlain s

/-- JavaScript String.prototype.trim: whitespace removed from both ends. -/
def trimJs (t : List Char) : List Char :=
  ((t.dropWhile jsWhitespace).reverse.dropWhile jsWhitespace).reverse

/-- stripAngleBrackets from src/src/checkif.ts: trims the text, and when
the trimmed text both starts with an opening and ends with a closing angle
bracket, returns the trimmed text without its first and last character
(JavaScript slice(1, -1)); otherwise returns the original text. -/
def stripAngleBrackets (text : List Char) : List Char :=
  let trimmed := trimJs text
  if trimmed.head? = some '<' ∧ trimmed.getLast? = some '>' then
    (trimmed.drop 1).dropLast
  else text

/-- shortTitle from src/src/main.ts: returns the title unchanged when the
configured maximum length is zero or the title is shorter than the maximum
plus three; otherwise the first maximum-length characters followed by an
ellipsis. -/
def shortTitle (maximumTitleLength : Nat) (title : List Char) : List Char :=
  if maximumTitleLength = 0 then title
  else if title.length < maximumTitleLength + 3 then title
  else title.take maximumTitleLength ++ "...".toList

/-- Localized message i18n.notices.titleUnavailable (English locale). -/
def titleUnavailable : List Char := "Title Unavailable | Site Unreachable".toList

/-- Localized message i18n.notices.errorFetching (English locale). -/
def errorFetching : List Char := "Error fetching title".toList

/-- The newline removal of fetchUrlTitle:
title.replace with a global regex matching CRLF, LF or CR removes every
carriage-return and line-feed character. -/
def stripNewlines (t : List Char) : List Char :=
  t.filter (fun c => !(c == '\n') && !(c == '\r'))

/-- Post-processing of fetchUrlTitle in src/src/main.ts and
src/src/title-fetcher.ts: strip newline variants, trim, and when the
outcome is the empty string (falsy) substitute the localized
title-unavailable message. -/
def postProcessTitle (t : List Char) : List Char :=
  let s := trimJs (stripNewlines t)
  if s = [] then titleUnavailable else s

/-- The strategy-selection part of fetchUrlTitle in src/src/main.ts: the
LinkPreview strategy's outcome, falling back to exactly one of the two
scrapers (httpScrape when useNewScraper, electronRender otherwise) when
LinkPreview resolves with the empty string.  Strategies are modelled as
Except values: ok is a resolved promise, error a rejected one. -/
def selectedStrategyResult (useNewScraper : Bool)
    (linkPreview httpScrape electronRender : Except Unit (List Char)) :
    Except Unit (List Char) :=
  match linkPreview with
  | .error e => .error e
  | .ok t =>
    if t = [] then (if useNewScraper then httpScrape else electronRender)
    else .ok t

/-- fetchUrlTitle from src/src/main.ts: runs the selected strategies
inside a try block, post-processes the resulting title, and converts any
escaping exception into the localized error-fetching message.  The Lean
function is total, which embeds the fact that the orchestrator itself
never throws. -/
def fetchUrlTitle (useNewScraper : Bool)
    (linkPreview httpScrape electronRender : Except Unit (List Char)) :
    List Char :=
  match selectedStrategyResult useNewScraper linkPreview httpScrape
      electronRender with
  | .error _ => errorFetching
  | .ok t => postProcessTitle t

/-- Observable outcome of one call to the LinkPreview strategy: the string
it resolves with, whether it logged the malformed-key warning, and whether
it issued the network request. -/
structure LinkPreviewCall where
  result : List Char
  warned : Bool
  requested : Bool
deriving Repr, DecidableEq

/-- isValidApiKey from src/src/title-fetcher.ts: exactly 32 characters. -/
def isValidApiKey (apiKey : List Char) : Bool := apiKey.length == 32

/-- fetchUrlTitleViaLinkPreview from src/src/title-fetcher.ts: an absent
(empty) key returns the empty string silently; a present but invalidly
shaped key logs a warning and returns the empty string; only a 32-character
key reaches the network request, whose failure is caught and collapsed to
the empty string.  The network is modelled as an Except parameter consumed
only on the request path. -/
def fetchUrlTitleViaLinkPreview (apiKey : List Char)
    (net : Except Unit (List Char)) : LinkPreviewCall :=
  if apiKey.length = 0 then ⟨[], false, false⟩
  else if !(isValidApiKey apiKey) then ⟨[], true, false⟩
  else match net with
    | .ok t => ⟨t, false, true⟩
    | .error _ => ⟨[], false, true⟩

/-- Structured view of a parsed http(s) URL: the scheme name, the
(lowercased) hostname, and everything after the hostname — path, query and
fragment — kept verbatim as one string. -/
structure UrlParts where
  scheme : List Char
  host : List Char
  rest : List Char
deriving Repr, DecidableEq

/-- Scheme recognition for the URL model: a case-insensitive http:// or
https:// prefix, returning the canonical scheme name and the remainder. -/
def stripSchemeNamed (s : List Char) : Option (List Char × List Char) :=
  match startsWithCI ("http://".toList) s with
  | some r => some ("http".toList, r)
  | none =>
    match startsWithCI ("https://".toList) s with
    | some r => some ("https".toList, r)
    | none => none

/-- Characters ending the hostname span of a URL. -/
def isHostDelim (c : Char) : Bool := c == '/' || c == '?' || c == '#'

/-- Characters that take a hostname outside the simple fragment modelled
here (ports, credentials, brackets, escapes, whitespace). -/
def badHostChar (c : Char) : Bool :=
  c == ':' || c == '@' || c == '[' || c == ']' || c == '\\' ||
  c == '%' || jsWhitespace c

/-- Model of the platform WHATWG URL constructor used by the source
(new URL), restricted to http(s) URLs with a simple hostname: the scheme
is recognized case-insensitively, the hostname is lowercased, and the rest
of the string is kept verbatim.  Inputs on which the constructor throws —
in particular any string without a scheme, such as a bare www-prefixed
URL — map to none, as do URLs outside the modelled fragment. -/
def parseUrl (s : List Char) : Option UrlParts :=
  match stripSchemeNamed s with
  | none => none
  | some (scheme, r) =>
    let host := r.takeWhile (fun c => !(isHostDelim c))
    let rest := r.drop host.length
    if host = [] ∨ host.any badHostChar then none
    else some ⟨scheme, host.map lowerAscii, rest⟩

/-- Serialization of the URL model, matching WHATWG href output on the
modelled fragment: an empty path is serialized as a slash, and a slash is
inserted before a rest that starts directly with a query or fragment. -/
def urlToString (u : UrlParts) : List Char :=
  u.scheme ++ "://".toList ++ u.host ++
  (match u.rest.head? with
    | none => "/".toList
    | some '?' => '/' :: u.rest
    | some '#' => '/' :: u.rest
    | some _ => u.rest)

/-- The four source hostnames recognized by CheckIf.isTwitterUrl. -/
def twitterHosts : List (List Char) :=
  ["twitter.com".toList, "www.twitter.com".toList,
   "x.com".toList, "www.x.com".toList]

/-- CheckIf.isTwitterUrl from src/src/checkif.ts: parse the URL and
compare the lowercased hostname against the four recognized hosts; a
throwing parse is caught and yields false. -/
def isTwitterUrl (url : List Char) : Bool :=
  match parseUrl url with
  | none => false
  | some u => twitterHosts.contains (u.host.map lowerAscii)

/-- CheckIf.toTwitterProxyUrl from src/src/checkif.ts: non-Twitter URLs
are returned unchanged; otherwise the hostname is substituted —
twitter.com and www.twitter.com become fxtwitter.com, x.com and www.x.com
become fixupx.com — and the URL is re-serialized; a throwing parse is
caught and yields the original string. -/
def toTwitterProxyUrl (url : List Char) : List Char :=
  if !(isTwitterUrl url) then url
  else match parseUrl url with
    | none => url
    | some u =>
      let hostname := u.host.map lowerAscii
      if hostname = "twitter.com".toList ∨
          hostname = "www.twitter.com".toList then
        urlToString { u with host := "fxtwitter.com".toList }
      else if hostname = "x.com".toList ∨ hostname = "www.x.com".toList then
        urlToString { u with host := "fixupx.com".toList }
      else urlToString u

/-- JavaScript String.prototype.indexOf generalized to a pattern list:
the least index at which the pattern occurs as a contiguous sublist, or
none.  An empty pattern occurs at index 0. -/
def firstIndexOf (s pat : List Char) : Option Nat :=
  if pat.isPrefixOf s then some 0
  else match s with
    | [] => none
    | _ :: rest => (firstIndexOf rest pat).map (fun n => n + 1)

/-- JavaScript String.prototype.includes. -/
def containsSubstring (s sub : List Char) : Bool := (firstIndexOf s sub).isSome

/-- JavaScript split on the regex alternation of a comma or a newline, as
used by isBlacklisted in src/src/main.ts: every comma or newline ends the
current field, and the empty string splits into one empty field. -/
def splitCommaNewline : List Char → List (List Char)
  | [] => [[]]
  | c :: rest =>
    if c = ',' ∨ c = '\n' then [] :: splitCommaNewline rest
    else match splitCommaNewline rest with
      | [] => [[c]]
      | g :: gs => (c :: g) :: gs

/-- The blacklist entry list of isBlacklisted in src/src/main.ts: the
configured string split on commas and newlines, each entry trimmed, empty
entries discarded. -/
def blacklistEntries (websiteBlacklist : List Char) : List (List Char) :=
  ((splitCommaNewline websiteBlacklist).map trimJs).filter
    (fun s => decide (0 < s.length))

/-- isBlacklisted from src/src/main.ts: some blacklist entry occurs in
the URL as a substring. -/
def isBlacklisted (websiteBlacklist url : List Char) : Bool :=
  (blacklistEntries websiteBlacklist).any
    (fun site => containsSubstring url site)

/-- Observable start of convertUrlToTitledLink in src/src/main.ts, up to
its first buffer mutation: on the blacklist path it either inserts the
hostname link built from new URL(url).hostname (inserted) or propagates
the constructor's exception before touching the buffer (threw); off the
blacklist path it proceeds to the placeholder-and-fetch protocol
(fetchPlaceholder). -/
inductive ConvertStart where
  | inserted (text : List Char)
  | fetchPlaceholder
  | threw
deriving Repr, DecidableEq

/-- The first branch of convertUrlToTitledLink from src/src/main.ts: a
blacklisted URL short-circuits every fetch strategy and inserts a
markdown link whose title is the parsed hostname; the hostname extraction
uses the throwing URL constructor with no scheme normalization. -/
def convertUrlToTitledLinkStart (websiteBlacklist url : List Char) :
    ConvertStart :=
  if isBlacklisted websiteBlacklist url then
    match parseUrl url with
    | none => .threw
    | some u => .inserted ('[' :: u.host ++ ']' :: '(' :: url ++ [')'])
  else .fetchPlaceholder

/-- normalizeUrl from src/src/scraper/common.ts: prepend https:// when
the string does not already start with http — this normalization lives
inside the fetch strategies only. -/
def normalizeUrl (url : List Char) : List Char :=
  if ("http".toList.isPrefixOf url) || ("https".toList.isPrefixOf url) then
    url
  else "https://".toList ++ url

/-- Characters whose escaped forms are unescaped by the first replace of
escapeMarkdown in src/src/main.ts. -/
def unescapeTargets : List Char := ['*', '_', Char.ofNat 0x60, '~', '\\', '[', ']']

/-- Characters escaped by the second (effective) replace of
escapeMarkdown in src/src/main.ts. -/
def escapeTargets : List Char :=
  ['*', '_', Char.ofNat 0x60, '|', '<', '>', '~', '\\', '[', ']']

/-- The global left-to-right unescaping replace of escapeMarkdown: a
backslash followed by a target character collapses to the bare
character. -/
def unescapePass : List Char → List Char
  | [] => []
  | [c] => [c]
  | c :: d :: rest =>
    if c = '\\' ∧ unescapeTargets.contains d then d :: unescapePass rest
    else c :: unescapePass (d :: rest)

/-- The global left-to-right escaping replace of escapeMarkdown: every
target character gains a leading backslash. -/
def escapePass : List Char → List Char
  | [] => []
  | c :: rest =>
    if escapeTargets.contains c then '\\' :: c :: escapePass rest
    else c :: escapePass rest

/-- escapeMarkdown from src/src/main.ts: unescape already-backslashed
characters, then escape the markdown-special characters (the variant with
the pipe character, which is the one the source returns). -/
def escapeMarkdown (text : List Char) : List Char := escapePass (unescapePass text)

/-- Editor coordinates: line number and character offset in the line. -/
structure EditorPosition where
  line : Nat
  ch : Nat
deriving Repr, DecidableEq

/-- Index of the last newline character of the list, if any: the final
value of the variable r in the scanning loop of
getEditorPositionFromIndex (src/src/editor-enhancements.ts), which calls
indexOf repeatedly and keeps the last hit. -/
def lastNewlineIdx : List Char → Option Nat
  | [] => none
  | c :: rest =>
    match lastNewlineIdx rest with
    | some i => some (i + 1)
    | none => if c = '\n' then some 0 else none

/-- The offset variable of getEditorPositionFromIndex after the loop and
the increment: one past the last newline before the index, or zero when
no newline precedes it. -/
def lineStartOffset (content : List Char) (index : Nat) : Nat :=
  match lastNewlineIdx (content.take index) with
  | some r => r + 1
  | none => 0

/-- getEditorPositionFromIndex from src/src/editor-enhancements.ts: the
line is the number of newlines in the prefix of the content up to the
index (the loop counts one per indexOf hit), and the character offset is
the length of the substring of the content from the line start of length
index minus offset (content.substr(offset, index - offset).length). -/
def getEditorPositionFromIndex (content : List Char) (index : Nat) :
    EditorPosition :=
  ⟨(content.take index).count '\n',
   ((content.drop (lineStartOffset content index)).take
      (index - lineStartOffset content index)).length⟩

/-- The claim's pure characterization of the coordinate translation:
count newline characters up to the offset to determine the line, and the
distance past the last preceding newline to determine the column. -/
def specPositionFromIndex (content : List Char) (index : Nat) :
    EditorPosition :=
  ⟨(content.take index).count '\n', index - lineStartOffset content index⟩

/-- Model of the editor's coordinate system: the flat index denoted by a
line/character pair is the character offset reached by skipping the given
number of newline-terminated lines and then the given number of
characters. -/
def posToIndex : List Char → Nat → Nat → Nat
  | _, 0, ch => ch
  | [], _ + 1, ch => ch
  | c :: rest, l + 1, ch =>
    1 + (if c = '\n' then posToIndex rest l ch else posToIndex rest (l + 1) ch)

/-- Model of the editor's replaceRange: splice the replacement between
the flat indices denoted by the two positions. -/
def replaceRange (content repl : List Char)
    (fromPos toPos : EditorPosition) : List Char :=
  content.take (posToIndex content fromPos.line fromPos.ch) ++ repl ++
    content.drop (posToIndex content toPos.line toPos.ch)

/-- The fetch-resolution tail of convertUrlToTitledLink in
src/src/main.ts: escape and truncate the fetched title, search the
current buffer text for the placeholder, and either bail out leaving the
buffer unchanged or replace exactly the found span via the line/column
coordinates computed by getEditorPositionFromIndex. -/
def resolveFetchedTitle (content pasteId rawTitle : List Char)
    (maximumTitleLength : Nat) : List Char :=
  match firstIndexOf content pasteId with
  | none => content
  | some start =>
    replaceRange content
      (shortTitle maximumTitleLength (escapeMarkdown rawTitle))
      (getEditorPositionFromIndex content start)
      (getEditorPositionFromIndex content (start + pasteId.length))

example : isUrl ("http://example.com".toList) = true := by decide

example : isUrl ("https://example.com".toList) = true := by decide

example : isUrl ("example.com".toList) = false := by decide

example : isUrl ("https://www.example.com".toList) = true := by decide

example : isUrl ("not a url".toList) = false := by decide

example : isUrl ("https://example .com".toList) = false := by decide

example : isUrl ("https://-invalid.com".toList) = false := by decide

example : isUrl ("https://com".toList) = false := by decide

example : isUrl ("https://my-awesome-site.com".toList) = true := by decide

example : isUrl ("www.a-b.xy".toList) = true := by decide

example : isUrl ("HTTPS://EXAMPLE.COM".toList) = true := by decide

example : isUrl ("www.tiktok.com/@user".toList) = true := by decide

example : isUrl ("".toList) = false := by decide

example : isUrl ("ftp://example.com".toList) = false := by decide

example : isUrl ("https://sub.domain.example.com".toList) = true := by decide

example : isUrl ("https://co-op.example.org".toList) = true := by decide

/-- C1: the claim states that the classifier accepts every string matching
the spec's bare-URL pattern and rejects every string carrying an explicit
port suffix.  The code does neither: DEFAULT_SETTINGS.regex accepts the
port-carrying URL `https://example.com:8080/path` (the colon is matched by
`[^\s]`), although the repository's own test suite asserts that this very
string is rejected; and it rejects
`http://www-cs-students.stanford.edu/~amitp/`, whose first label matches
the spec's pattern (alphanumeric with internal hyphens), because the
negative lookahead `(?!www)` aborts on any label starting with `www` —
again contradicting the repository's own tests, which assert this string
is accepted.  This theorem evaluates the embedded classifier at both
failing inputs. -/
theorem isUrl_contradicts_port_and_hyphen_tests :
    isUrl ("https://example.com:8080/path".toList) = true ∧
    isUrl ("http://www-cs-students.stanford.edu/~amitp/".toList) = false := by
  exact ⟨by decide, by decide⟩

/-- Membership in the trimmed list implies membership in the original. -/
theorem mem_of_mem_trimJs {c : Char} {u : List Char} (h : c ∈ trimJs u) :
    c ∈ u := by
  unfold trimJs at h
  rw [List.mem_reverse] at h
  have h1 : c ∈ (u.dropWhile jsWhitespace).reverse :=
    (List.dropWhile_sublist _).mem h
  rw [List.mem_reverse] at h1
  exact (List.dropWhile_sublist _).mem h1

/-- Trimming changes nothing when both end characters are non-whitespace. -/
theorem trimJs_eq_self {c d : Char} (u : List Char)
    (hc : jsWhitespace c = false) (hd : jsWhitespace d = false) :
    trimJs (c :: u ++ [d]) = c :: u ++ [d] := by
  simp [trimJs, List.dropWhile_cons, hc, hd]

/-- C9: stripAngleBrackets unwraps a bracketed string back to its payload
when the payload contains no angle bracket, and leaves any string alone
that is missing one of the two brackets (in particular any string with at
most one bracket character). -/
theorem stripAngleBrackets_spec :
    (∀ u : List Char, '<' ∉ u → '>' ∉ u →
        stripAngleBrackets ('<' :: u ++ ['>']) = u) ∧
    (∀ u : List Char, ('<' ∉ u ∨ '>' ∉ u) → stripAngleBrackets u = u) := by
  constructor
  · intro u _ _
    unfold stripAngleBrackets
    rw [trimJs_eq_self u (by decide) (by decide)]
    rw [if_pos]
    · simp
    · constructor
      · rfl
      · rw [show '<' :: u ++ ['>'] = ('<' :: u) ++ ['>'] from rfl,
          List.getLast?_concat]
  · intro u hu
    unfold stripAngleBrackets
    rw [if_neg]
    intro ⟨h1, h2⟩
    have hlt : '<' ∈ u := mem_of_mem_trimJs (List.mem_of_mem_head? h1)
    have hgt : '>' ∈ u := by
      have hmem : '>' ∈ (trimJs u).getLast? := by
        rw [Option.mem_def]; exact h2
      obtain ⟨hne, heq⟩ := List.mem_getLast?_eq_getLast hmem
      exact mem_of_mem_trimJs (heq ▸ List.getLast_mem hne)
    cases hu with
    | inl h => exact h hlt
    | inr h => exact h hgt

/-- Witness for C9 at concrete inputs. -/
theorem stripAngleBrackets_spec_witness :
    stripAngleBrackets ("<https://example.com>".toList) =
      "https://example.com".toList ∧
    stripAngleBrackets ("https://example.com>".toList) =
      "https://example.com>".toList := by
  constructor
  · exact stripAngleBrackets_spec.1 ("https://example.com".toList)
      (by decide) (by decide)
  · exact stripAngleBrackets_spec.2 ("https://example.com>".toList)
      (Or.inl (by decide))

/-- C8: for a positive maximum N and a title of length at least N + 3 the
result is the first N characters followed by three dots, of length exactly
N + 3 (hence at most N + 3); for maximum 0 the title is returned unchanged
whatever its length. -/
theorem shortTitle_spec :
    (∀ (n : Nat) (title : List Char), 0 < n → n + 3 ≤ title.length →
        shortTitle n title = title.take n ++ "...".toList ∧
        (shortTitle n title).length ≤ n + 3) ∧
    (∀ title : List Char, shortTitle 0 title = title) := by
  constructor
  · intro n title hn hlen
    have heq : shortTitle n title = title.take n ++ "...".toList := by
      unfold shortTitle
      rw [if_neg (Nat.pos_iff_ne_zero.mp hn), if_neg (by omega)]
    refine ⟨heq, ?_⟩
    rw [heq]
    simp only [List.length_append, List.length_take]
    have : min n title.length = n := Nat.min_eq_left (by omega)
    rw [this]
    simp
  · intro title
    unfold shortTitle
    simp

/-- Witness for C8 at concrete inputs. -/
theorem shortTitle_spec_witness :
    shortTitle 2 ("abcdef".toList) = "ab...".toList ∧
    shortTitle 0 ("abcdef".toList) = "abcdef".toList := by
  constructor
  · exact (shortTitle_spec.1 2 ("abcdef".toList) (by decide) (by decide)).1
  · exact shortTitle_spec.2 ("abcdef".toList)

/-- Trimming a list of whitespace characters leaves nothing. -/
theorem trimJs_eq_nil_of_all {s : List Char}
    (h : s.all jsWhitespace = true) : trimJs s = [] := by
  have h1 : s.dropWhile jsWhitespace = [] := by
    rw [List.dropWhile_eq_nil_iff]
    intro x hx
    exact List.all_eq_true.mp h x hx
  simp [trimJs, h1]

/-- Filtering preserves an all-elements property. -/
theorem all_stripNewlines_of_all {t : List Char}
    (h : t.all jsWhitespace = true) :
    (stripNewlines t).all jsWhitespace = true := by
  rw [List.all_eq_true] at h ⊢
  intro x hx
  exact h x (List.mem_of_mem_filter hx)

/-- The post-processed title is never the empty string. -/
theorem postProcessTitle_ne_nil (t : List Char) : postProcessTitle t ≠ [] := by
  unfold postProcessTitle
  by_cases h : trimJs (stripNewlines t) = []
  · simp [h]; decide
  · simp [h]

/-- C3: the orchestrator never returns the empty string; whenever the
selected strategies resolve with a string made only of whitespace and
newline characters the fixed localized title-unavailable message is
returned; and whenever an exception escapes the strategies the fixed
localized error-fetching message is returned.  Totality of the embedding
is the never-throws half of the claim. -/
theorem fetchUrlTitle_spec (useNewScraper : Bool)
    (linkPreview httpScrape electronRender : Except Unit (List Char)) :
    fetchUrlTitle useNewScraper linkPreview httpScrape electronRender ≠ [] ∧
    (∀ t, selectedStrategyResult useNewScraper linkPreview httpScrape
        electronRender = .ok t → t.all jsWhitespace = true →
        fetchUrlTitle useNewScraper linkPreview httpScrape electronRender =
          titleUnavailable) ∧
    (selectedStrategyResult useNewScraper linkPreview httpScrape
        electronRender = .error () →
        fetchUrlTitle useNewScraper linkPreview httpScrape electronRender =
          errorFetching) := by
  cases h : selectedStrategyResult useNewScraper linkPreview httpScrape
      electronRender with
  | error e =>
    refine ⟨?_, ?_, ?_⟩
    · simp [fetchUrlTitle, h]; decide
    · intro t ht _
      exact absurd ht (by simp)
    · intro _
      simp [fetchUrlTitle, h]
  | ok t =>
    refine ⟨?_, ?_, ?_⟩
    · simpa [fetchUrlTitle, h] using postProcessTitle_ne_nil t
    · intro t2 ht2 hall
      injection ht2 with ht2
      subst ht2
      have hnil : trimJs (stripNewlines t) = [] :=
        trimJs_eq_nil_of_all (all_stripNewlines_of_all hall)
      simp [fetchUrlTitle, h, postProcessTitle, hnil]
    · intro habs
      exact absurd habs (by simp)

/-- Witness for C3 at a concrete whitespace-only strategy result. -/
theorem fetchUrlTitle_spec_witness :
    fetchUrlTitle false (.ok ("\n ".toList)) (.ok []) (.ok []) =
      titleUnavailable :=
  (fetchUrlTitle_spec false (.ok ("\n ".toList)) (.ok []) (.ok [])).2.1
    ("\n ".toList) rfl (by decide)

/-- C7: when the LinkPreview strategy resolves with the empty string, the
orchestrator's final result is exactly the post-processed result of the
single fallback strategy selected by useNewScraper. -/
theorem fetchUrlTitle_fallback (useNewScraper : Bool)
    (httpScrape electronRender : Except Unit (List Char)) (t : List Char)
    (h : (if useNewScraper then httpScrape else electronRender) = .ok t) :
    fetchUrlTitle useNewScraper (.ok []) httpScrape electronRender =
      postProcessTitle t := by
  simp [fetchUrlTitle, selectedStrategyResult, h]

/-- Witness for C7 at a concrete fallback result. -/
theorem fetchUrlTitle_fallback_witness :
    fetchUrlTitle true (.ok []) (.ok ("Example Page".toList)) (.error ()) =
      postProcessTitle ("Example Page".toList) :=
  fetchUrlTitle_fallback true (.ok ("Example Page".toList)) (.error ())
    ("Example Page".toList) rfl

/-- C5: a key that is not exactly 32 characters short-circuits to the
empty string without any network request; when such a key is present
(non-empty) the warning is surfaced, while an absent (empty) key stays
silent. -/
theorem fetchUrlTitleViaLinkPreview_spec (apiKey : List Char)
    (net : Except Unit (List Char)) :
    (apiKey.length ≠ 32 →
      (fetchUrlTitleViaLinkPreview apiKey net).result = [] ∧
      (fetchUrlTitleViaLinkPreview apiKey net).requested = false) ∧
    (apiKey ≠ [] → apiKey.length ≠ 32 →
      (fetchUrlTitleViaLinkPreview apiKey net).warned = true) ∧
    (apiKey = [] →
      (fetchUrlTitleViaLinkPreview apiKey net).warned = false ∧
      (fetchUrlTitleViaLinkPreview apiKey net).result = [] ∧
      (fetchUrlTitleViaLinkPreview apiKey net).requested = false) := by
  refine ⟨?_, ?_, ?_⟩
  · intro h32
    by_cases h0 : apiKey.length = 0
    · simp [fetchUrlTitleViaLinkPreview, h0]
    · simp [fetchUrlTitleViaLinkPreview, h0, isValidApiKey, h32]
  · intro hne h32
    have h0 : apiKey.length ≠ 0 := by
      intro h
      exact hne (List.length_eq_zero.mp h)
    simp [fetchUrlTitleViaLinkPreview, h0, isValidApiKey, h32]
  · intro h
    subst h
    simp [fetchUrlTitleViaLinkPreview]

/-- Witness for C5: a present 31-character key warns without requesting,
and the absent key stays silent. -/
theorem fetchUrlTitleViaLinkPreview_spec_witness :
    (fetchUrlTitleViaLinkPreview ("0123456789012345678901234567890".toList)
        (.ok ("t".toList))).warned = true ∧
    (fetchUrlTitleViaLinkPreview [] (.ok ("t".toList))).warned = false := by
  constructor
  · exact (fetchUrlTitleViaLinkPreview_spec
      ("0123456789012345678901234567890".toList) (.ok ("t".toList))).2.1
      (by decide) (by decide)
  · exact ((fetchUrlTitleViaLinkPreview_spec [] (.ok ("t".toList))).2.2
      rfl).1

/-- Lowercasing is the identity on characters outside A-Z. -/
theorem lowerAscii_eq_self {c : Char}
    (h : (65 ≤ c.toNat && c.toNat ≤ 90) = false) : lowerAscii c = c := by
  simp [lowerAscii, h]

/-- Lowercasing is the identity on strings without uppercase letters. -/
theorem map_lowerAscii_eq_self {l : List Char}
    (h : l.all (fun c => !(65 ≤ c.toNat && c.toNat ≤ 90)) = true) :
    l.map lowerAscii = l := by
  induction l with
  | nil => rfl
  | cons c rest ih =>
    rw [List.all_cons, Bool.and_eq_true] at h
    rw [List.map_cons, ih h.2, lowerAscii_eq_self (by
      cases hcond : (65 ≤ c.toNat && c.toNat ≤ 90) with
      | true => rw [hcond] at h; exact absurd h.1 (by decide)
      | false => rfl)]

/-- C4: on every URL of the modelled fragment whose hostname is one of
the two Twitter domains (with or without www), the proxy rewrite
substitutes fxtwitter.com; on the two X domains it substitutes
fixupx.com; the scheme and the rest of the URL — path, query, fragment —
are preserved untouched.  The final conjunct checks the end-to-end
scenario of the spec. -/
theorem toTwitterProxyUrl_spec :
    (∀ (url : List Char) (u : UrlParts), parseUrl url = some u →
      ((u.host = "twitter.com".toList ∨
          u.host = "www.twitter.com".toList) →
        toTwitterProxyUrl url =
          urlToString { u with host := "fxtwitter.com".toList }) ∧
      ((u.host = "x.com".toList ∨ u.host = "www.x.com".toList) →
        toTwitterProxyUrl url =
          urlToString { u with host := "fixupx.com".toList })) ∧
    toTwitterProxyUrl ("https://twitter.com/user/status/123".toList) =
      "https://fxtwitter.com/user/status/123".toList := by
  constructor
  · intro url u hp
    constructor
    · intro hh
      have hlow : u.host.map lowerAscii = u.host := by
        rcases hh with h | h <;> rw [h] <;>
          exact map_lowerAscii_eq_self (by decide)
      have htw : isTwitterUrl url = true := by
        unfold isTwitterUrl
        rw [hp]
        show twitterHosts.contains (u.host.map lowerAscii) = true
        rw [hlow]
        rcases hh with h | h <;> rw [h] <;> decide
      unfold toTwitterProxyUrl
      rw [htw]
      simp only [Bool.not_true, Bool.false_eq_true, if_false, hp, hlow]
      rcases hh with h | h <;> rw [if_pos (by rw [h]; first | exact Or.inl rfl | exact Or.inr rfl)]
    · intro hh
      have hlow : u.host.map lowerAscii = u.host := by
        rcases hh with h | h <;> rw [h] <;>
          exact map_lowerAscii_eq_self (by decide)
      have htw : isTwitterUrl url = true := by
        unfold isTwitterUrl
        rw [hp]
        show twitterHosts.contains (u.host.map lowerAscii) = true
        rw [hlow]
        rcases hh with h | h <;> rw [h] <;> decide
      unfold toTwitterProxyUrl
      rw [htw]
      simp only [Bool.not_true, Bool.false_eq_true, if_false, hp, hlow]
      rw [if_neg (by
        rcases hh with h | h <;> rw [h] <;> rintro (habs | habs) <;>
          exact absurd habs (by decide))]
      rcases hh with h | h <;> rw [if_pos (by rw [h]; first | exact Or.inl rfl | exact Or.inr rfl)]
  · decide

/-- Witness for C4 at a concrete X URL. -/
theorem toTwitterProxyUrl_spec_witness :
    toTwitterProxyUrl ("https://x.com/user/status/123".toList) =
      "https://fixupx.com/user/status/123".toList := by
  have := (toTwitterProxyUrl_spec.1 ("https://x.com/user/status/123".toList)
    ⟨"https".toList, "x.com".toList, "/user/status/123".toList⟩
    (by decide)).2 (Or.inl rfl)
  rw [this]
  decide

example : blacklistEntries ("localhost, tiktok.com".toList) =
    ["localhost".toList, "tiktok.com".toList] := by decide

example : blacklistEntries ("".toList) = [] := by decide

example : blacklistEntries (" a \nb,,c".toList) =
    ["a".toList, "b".toList, "c".toList] := by decide

example : isBlacklisted ("tiktok.com".toList)
    ("https://www.tiktok.com/@user".toList) = true := by decide

example : isBlacklisted ("tiktok.com".toList)
    ("https://example.com".toList) = false := by decide

/-- Counterexample for C6: the claim quantifies over every URL containing
a blacklist entry, but on the classifier-accepted, scheme-less URL
www.tiktok.com/@user the blacklist branch throws inside the hostname
extraction and inserts nothing, instead of inserting a hostname link. -/
theorem blacklist_insert_counterexample :
    isBlacklisted ("tiktok.com".toList) ("www.tiktok.com/@user".toList) =
      true ∧
    convertUrlToTitledLinkStart ("tiktok.com".toList)
      ("www.tiktok.com/@user".toList) = ConvertStart.threw := by
  exact ⟨by decide, by decide⟩

/-- C6 (amended): for every blacklisted URL on which the URL constructor
succeeds, the pipeline performs no fetch-strategy call and inserts the
markdown link built from the parsed hostname and the original URL. -/
theorem blacklist_insert_spec (websiteBlacklist url : List Char)
    (u : UrlParts) (hb : isBlacklisted websiteBlacklist url = true)
    (hp : parseUrl url = some u) :
    convertUrlToTitledLinkStart websiteBlacklist url =
      ConvertStart.inserted ('[' :: u.host ++ ']' :: '(' :: url ++ [')']) := by
  simp [convertUrlToTitledLinkStart, hb, hp]

/-- Witness for C6 at the spec's end-to-end scenario: blacklist entry
tiktok.com and the scheme-carrying TikTok URL. -/
theorem blacklist_insert_spec_witness :
    convertUrlToTitledLinkStart ("tiktok.com".toList)
      ("https://www.tiktok.com/@user".toList) =
      ConvertStart.inserted
        ("[www.tiktok.com](https://www.tiktok.com/@user)".toList) := by
  have h := blacklist_insert_spec ("tiktok.com".toList)
    ("https://www.tiktok.com/@user".toList)
    ⟨"https".toList, "www.tiktok.com".toList, "/@user".toList⟩
    (by decide) (by decide)
  rw [h]
  decide

/-- C10: the classifier accepts the scheme-less URL www.tiktok.com/@user
and the blacklist matches it, yet convertUrlToTitledLink throws in the
blacklist branch (the URL constructor rejects a scheme-less string) and
inserts nothing; the scheme normalization that would have rescued it
exists only inside the fetch strategies (normalizeUrl), which the
zero-network blacklist path never calls. -/
theorem schemeless_blacklist_throws :
    isUrl ("www.tiktok.com/@user".toList) = true ∧
    isBlacklisted ("tiktok.com".toList) ("www.tiktok.com/@user".toList) =
      true ∧
    convertUrlToTitledLinkStart ("tiktok.com".toList)
      ("www.tiktok.com/@user".toList) = ConvertStart.threw ∧
    parseUrl ("www.tiktok.com/@user".toList) = none ∧
    (parseUrl (normalizeUrl ("www.tiktok.com/@user".toList))).isSome =
      true := by
  refine ⟨by decide, by decide, by decide, by decide, by decide⟩

example : escapeMarkdown ("T*".toList) = "T\\*".toList := by decide

example : escapeMarkdown ("a\\*b".toList) = "a\\*b".toList := by decide

example : escapeMarkdown ("[x]".toList) = "\\[x\\]".toList := by decide

/-- Equation lemma: a position on line zero denotes its character offset. -/
theorem posToIndex_zero (content : List Char) (ch : Nat) :
    posToIndex content 0 ch = ch := by
  cases content <;> rfl

/-- Equation lemma for posToIndex on a nonempty buffer and positive line. -/
theorem posToIndex_cons_succ (c : Char) (rest : List Char) (l ch : Nat) :
    posToIndex (c :: rest) (l + 1) ch =
      1 + (if c = '\n' then posToIndex rest l ch
           else posToIndex rest (l + 1) ch) := rfl

/-- The last-newline index lies inside the list. -/
theorem lastNewlineIdx_lt {l : List Char} {r : Nat}
    (h : lastNewlineIdx l = some r) : r < l.length := by
  induction l generalizing r with
  | nil => exact absurd h (by simp [lastNewlineIdx])
  | cons c rest ih =>
    unfold lastNewlineIdx at h
    cases hl : lastNewlineIdx rest with
    | some i =>
      rw [hl] at h
      simp only [Option.some.injEq] at h
      subst h
      exact Nat.succ_lt_succ (ih hl)
    | none =>
      rw [hl] at h
      by_cases hc : c = '\n'
      · have h0 : r = 0 := by
          simp [hc] at h
          omega
        subst h0
        simp
      · simp [hc] at h

/-- Without a last newline there is no newline at all. -/
theorem count_eq_zero_of_lastNewlineIdx_none {l : List Char}
    (h : lastNewlineIdx l = none) : l.count '\n' = 0 := by
  induction l with
  | nil => rfl
  | cons c rest ih =>
    unfold lastNewlineIdx at h
    cases hl : lastNewlineIdx rest with
    | some i => rw [hl] at h; simp at h
    | none =>
      rw [hl] at h
      by_cases hc : c = '\n'
      · simp [hc] at h
      · rw [List.count_cons]
        simp [ih hl, hc]

/-- A last newline guarantees a positive newline count. -/
theorem count_pos_of_lastNewlineIdx_some {l : List Char} {r : Nat}
    (h : lastNewlineIdx l = some r) : 0 < l.count '\n' := by
  induction l generalizing r with
  | nil => simp [lastNewlineIdx] at h
  | cons c rest ih =>
    unfold lastNewlineIdx at h
    cases hl : lastNewlineIdx rest with
    | some i =>
      rw [List.count_cons]
      exact Nat.lt_of_lt_of_le (ih hl) (Nat.le_add_right _ _)
    | none =>
      rw [hl] at h
      by_cases hc : c = '\n'
      · rw [List.count_cons]
        simp [hc]
      · simp [hc] at h

/-- The line-start offset never exceeds the index within the buffer. -/
theorem lineStartOffset_le {content : List Char} {index : Nat} :
    lineStartOffset content index ≤ index := by
  cases hl : lastNewlineIdx (content.take index) with
  | none => simp [lineStartOffset, hl]
  | some r =>
    have hr := lastNewlineIdx_lt hl
    rw [List.length_take] at hr
    have hmin := Nat.min_le_left index content.length
    simp only [lineStartOffset, hl]
    omega

/-- The coordinates computed by getEditorPositionFromIndex agree with the
claim's pure characterization whenever the index lies in the buffer. -/
theorem getEditorPosition_eq_spec (content : List Char) (index : Nat)
    (h : index ≤ content.length) :
    getEditorPositionFromIndex content index =
      specPositionFromIndex content index := by
  unfold getEditorPositionFromIndex specPositionFromIndex
  have hoff : lineStartOffset content index ≤ index := lineStartOffset_le
  congr 1
  rw [List.length_take, List.length_drop]
  omega

/-- Inversion: the flat index denoted by the computed coordinates is the
original index. -/
theorem posToIndex_spec (content : List Char) :
    ∀ index : Nat, index ≤ content.length →
      posToIndex content ((content.take index).count '\n')
        (index - lineStartOffset content index) = index := by
  induction content with
  | nil =>
    intro index h
    have h0 : index = 0 := Nat.le_zero.mp h
    subst h0
    rfl
  | cons c rest ih =>
    intro index h
    cases index with
    | zero => rfl
    | succ i =>
      have hi : i ≤ rest.length := by
        have := List.length_cons c rest ▸ h
        omega
      by_cases hc : c = '\n'
      · subst hc
        have hcount : (('\n' :: rest).take (i + 1)).count '\n'
            = (rest.take i).count '\n' + 1 := by
          rw [List.take_succ_cons, List.count_cons]
          simp
        have hoff : lineStartOffset ('\n' :: rest) (i + 1)
            = lineStartOffset rest i + 1 := by
          cases hl : lastNewlineIdx (rest.take i) with
          | some r =>
            simp [lineStartOffset, List.take_succ_cons, lastNewlineIdx, hl]
          | none =>
            simp [lineStartOffset, List.take_succ_cons, lastNewlineIdx, hl]
        rw [hcount, hoff, Nat.succ_sub_succ, posToIndex_cons_succ,
          if_pos rfl, ih i hi]
        omega
      · cases hl : lastNewlineIdx (rest.take i) with
        | some r =>
          have hoff : lineStartOffset (c :: rest) (i + 1)
              = lineStartOffset rest i + 1 := by
            simp [lineStartOffset, List.take_succ_cons, lastNewlineIdx, hl]
          have hcount : ((c :: rest).take (i + 1)).count '\n'
              = (rest.take i).count '\n' := by
            rw [List.take_succ_cons, List.count_cons]
            simp [hc]
          have hpos : 0 < (rest.take i).count '\n' :=
            count_pos_of_lastNewlineIdx_some hl
          rw [hcount, hoff, Nat.succ_sub_succ]
          obtain ⟨l2, hl2⟩ :
              ∃ l2, (rest.take i).count '\n' = l2 + 1 :=
            ⟨(rest.take i).count '\n' - 1, by omega⟩
          rw [hl2, posToIndex_cons_succ, if_neg hc, ← hl2, ih i hi]
          omega
        | none =>
          have hoff : lineStartOffset (c :: rest) (i + 1) = 0 := by
            simp [lineStartOffset, List.take_succ_cons, lastNewlineIdx, hl, hc]
          have hcount : ((c :: rest).take (i + 1)).count '\n' = 0 := by
            rw [List.take_succ_cons, List.count_cons]
            simp [hc, count_eq_zero_of_lastNewlineIdx_none hl]
          rw [hcount, hoff, posToIndex_zero]
          omega

/-- The editor model recovers the flat index from the coordinates that
getEditorPositionFromIndex computes for it. -/
theorem posToIndex_getEditorPositionFromIndex (content : List Char)
    (index : Nat) (h : index ≤ content.length) :
    posToIndex content (getEditorPositionFromIndex content index).line
      (getEditorPositionFromIndex content index).ch = index := by
  rw [getEditorPosition_eq_spec content index h]
  exact posToIndex_spec content index h

/-- Characterization of a successful indexOf search: the pattern occurs
at the returned index, fits inside the list, and occurs at no earlier
index. -/
theorem firstIndexOf_some {s pat : List Char} :
    ∀ {i : Nat}, firstIndexOf s pat = some i →
      pat.isPrefixOf (s.drop i) = true ∧ i + pat.length ≤ s.length ∧
      ∀ j, j < i → pat.isPrefixOf (s.drop j) = false := by
  induction s with
  | nil =>
    intro i h
    unfold firstIndexOf at h
    by_cases hp : pat.isPrefixOf ([] : List Char) = true
    · rw [if_pos hp] at h
      simp only [Option.some.injEq] at h
      subst h
      have hnil : pat = [] := by
        cases pat with
        | nil => rfl
        | cons a l => simp [List.isPrefixOf] at hp
      subst hnil
      exact ⟨by simp, by simp, by intro j hj; omega⟩
    · rw [if_neg hp] at h
      simp at h
  | cons c rest ih =>
    intro i h
    unfold firstIndexOf at h
    by_cases hp : pat.isPrefixOf (c :: rest) = true
    · rw [if_pos hp] at h
      simp only [Option.some.injEq] at h
      subst h
      refine ⟨by simpa using hp, ?_, by intro j hj; omega⟩
      have := List.IsPrefix.length_le (List.isPrefixOf_iff_prefix.mp hp)
      simpa using this
    · rw [if_neg hp] at h
      have hmap : Option.map (fun n => n + 1) (firstIndexOf rest pat) =
          some i := h
      cases hf : firstIndexOf rest pat with
      | none => rw [hf] at hmap; simp at hmap
      | some i2 =>
        rw [hf] at hmap
        simp only [Option.map_some', Option.some.injEq] at hmap
        subst hmap
        obtain ⟨h1, h2, h3⟩ := ih hf
        refine ⟨by rw [List.drop_succ_cons]; exact h1, ?_, ?_⟩
        · simp only [List.length_cons]
          omega
        · intro j hj
          cases j with
          | zero =>
            rw [List.drop_zero]
            exact Bool.not_eq_true _ ▸ hp
          | succ j2 =>
            rw [List.drop_succ_cons]
            exact h3 j2 (by omega)

/-- C2: when the placeholder occurs in the buffer, the resolution step
replaces exactly the first occurrence (and nothing else) with the escaped
and length-truncated title, and the line/column coordinates used for the
replacement are exactly newline-count up to the offset and distance past
the last preceding newline; when the placeholder does not occur, the
buffer is returned entirely unchanged. -/
theorem resolveFetchedTitle_spec (content pasteId rawTitle : List Char)
    (maximumTitleLength : Nat) :
    (∀ start, firstIndexOf content pasteId = some start →
      resolveFetchedTitle content pasteId rawTitle maximumTitleLength =
        content.take start ++
          shortTitle maximumTitleLength (escapeMarkdown rawTitle) ++
          content.drop (start + pasteId.length) ∧
      pasteId.isPrefixOf (content.drop start) = true ∧
      (∀ j, j < start → pasteId.isPrefixOf (content.drop j) = false) ∧
      getEditorPositionFromIndex content start =
        specPositionFromIndex content start ∧
      getEditorPositionFromIndex content (start + pasteId.length) =
        specPositionFromIndex content (start + pasteId.length)) ∧
    (firstIndexOf content pasteId = none →
      resolveFetchedTitle content pasteId rawTitle maximumTitleLength =
        content) := by
  constructor
  · intro start h
    obtain ⟨h1, h2, h3⟩ := firstIndexOf_some h
    have hs : start ≤ content.length := by omega
    have he : start + pasteId.length ≤ content.length := h2
    refine ⟨?_, h1, h3, getEditorPosition_eq_spec content start hs,
      getEditorPosition_eq_spec content (start + pasteId.length) he⟩
    unfold resolveFetchedTitle
    simp only [h]
    unfold replaceRange
    rw [posToIndex_getEditorPositionFromIndex content start hs,
      posToIndex_getEditorPositionFromIndex content
        (start + pasteId.length) he]
  · intro h
    unfold resolveFetchedTitle
    simp only [h]

/-- Witness for C2 at a concrete buffer: the placeholder at index 6 is
replaced by the escaped title, across a newline boundary in the buffer. -/
theorem resolveFetchedTitle_spec_witness :
    resolveFetchedTitle ("AB\nC [PID](u) D".toList) ("PID".toList)
      ("T*".toList) 0 = "AB\nC [T\\*](u) D".toList := by
  have h := (resolveFetchedTitle_spec ("AB\nC [PID](u) D".toList)
    ("PID".toList) ("T*".toList) 0).1 6 (by decide)
  rw [h.1]
  decide


end AutoLinkTitle
